/-
Verification of the aurman `main_solver` resolution pipeline.

The file embeds `src/aurman/main_solver.py` as Lean functions.  The helpers
imported by that module (`aurman.classes.System`, `aurman.classes.Package`,
`aurman.utilities.version_comparison`, `strip_versioning_from_name`) are not
part of the repository snapshot; they are modelled from the spec
(`spec.md` sections 3, 4.1, 4.3, 4.4 and 4.5), as marked in their doc
comments.  Python `dict`s are modelled as insertion-ordered association
lists, Python `set`s as insertion-ordered duplicate-free lists, `sys.exit`
as an `Except` error value.
-/
import Mathlib

set_option autoImplicit false

namespace Aurman

/-! ## Version model

Modelled from the spec, section 3 and 4.1: `VersionString` is
`[epoch:]pkgver[-pkgrel]`, with `pkgver` an alternating sequence of numeric
and alphabetic runs.  The comparator `aurman.utilities.version_comparison`
is not in the repository snapshot. -/

/-- One run of a `pkgver`: a numeric run or an alphabetic run. -/
inductive Run where
  | num (n : Nat)
  | alph (s : String)
deriving DecidableEq, Repr

/-- Modelled from the spec, section 3: a version string
`[epoch:]pkgver[-pkgrel]`; absent epoch and pkgrel are denoted by `0`. -/
structure Version where
  epoch : Nat
  pkgver : List Run
  pkgrel : Nat
deriving DecidableEq, Repr

/-- Comparison of two runs: numeric runs compare by magnitude, alphabetic
runs compare lexicographically; a numeric run outranks an alphabetic one. -/
def runCompare : Run → Run → Ordering
  | Run.num a, Run.num b => compare a b
  | Run.alph a, Run.alph b => compare a b
  | Run.num _, Run.alph _ => Ordering.gt
  | Run.alph _, Run.num _ => Ordering.lt

/-- Modelled from the spec, section 4.1: run-by-run comparison of `pkgver`;
a present numeric run outranks a missing one, while a missing alphabetic
run outranks a present one. -/
def pkgverCompare : List Run → List Run → Ordering
  | [], [] => Ordering.eq
  | [], Run.num _ :: _ => Ordering.lt
  | [], Run.alph _ :: _ => Ordering.gt
  | Run.num _ :: _, [] => Ordering.gt
  | Run.alph _ :: _, [] => Ordering.lt
  | a :: as, b :: bs => (runCompare a b).then (pkgverCompare as bs)

/-- Modelled from the spec, section 4.1: epoch first, then `pkgver`
run-by-run, then `pkgrel`. -/
def versionCompare (v w : Version) : Ordering :=
  (compare v.epoch w.epoch).then
    ((pkgverCompare v.pkgver w.pkgver).then (compare v.pkgrel w.pkgrel))

/-- The five version comparators a dependency may carry. -/
inductive Comp where
  | lt
  | le
  | eq
  | ge
  | gt
deriving DecidableEq, Repr

/-- Does version `a` stand in relation `c` to version `b`? -/
def compSat (a : Version) (c : Comp) (b : Version) : Bool :=
  match c, versionCompare a b with
  | Comp.lt, Ordering.lt => true
  | Comp.le, Ordering.lt => true
  | Comp.le, Ordering.eq => true
  | Comp.eq, Ordering.eq => true
  | Comp.ge, Ordering.eq => true
  | Comp.ge, Ordering.gt => true
  | Comp.gt, Ordering.gt => true
  | _, _ => false

/-- Modelled from the spec, section 4.1: the comparator
`aurman.utilities.version_comparison(a, op, b)` used by `process`. -/
def version_comparison (a : Version) (c : Comp) (b : Version) : Bool :=
  compSat a c b

/-! ## Dependency tokens and packages

Modelled from the spec, section 3: a `Dependency` is a name with an
optional comparator and version.  User-typed tokens such as `"foo>1.0"`
are embedded already parsed into this shape. -/

/-- A dependency / user token: `(name, optional comparator and version)`. -/
structure DepToken where
  name : String
  constraint : Option (Comp × Version)
deriving DecidableEq, Repr

/-- Modelled from the spec, section 4.2: the source-variant classification
of a package (`aurman.classes` is not in the repository snapshot). -/
inductive PackageVariant where
  | repoPkg
  | sourceBuild
  | sourceBuildDevel
  | localUnknown
deriving DecidableEq, Repr

/-- Modelled from the spec, section 3: one immutable package entity. -/
structure Package where
  name : String
  version : Version
  variant : PackageVariant
  depends : List DepToken
  conflicts : List DepToken
  provides : List DepToken
deriving DecidableEq, Repr

/-- The implicit self-provide `{name, =, version}` of a package
(spec, section 3: `provides` always implicitly includes it). -/
def selfProvide (p : Package) : DepToken :=
  { name := p.name, constraint := some (Comp.eq, p.version) }

/-- All capability entries of a package: the implicit self-provide
followed by the declared `provides`. -/
def provEntries (p : Package) : List DepToken :=
  selfProvide p :: p.provides

/-- Does the capability entry `e` satisfy the dependency `dep`?  The names
must match; a constraint-free dependency matches any version, a versioned
dependency needs a versioned entry whose version satisfies the comparator. -/
def entrySatisfies (e : DepToken) (dep : DepToken) : Bool :=
  e.name == dep.name &&
    match dep.constraint with
    | none => true
    | some (c, v) =>
      match e.constraint with
      | some (_, ev) => compSat ev c v
      | none => false

/-- Does package `p` provide something satisfying the dependency `dep`? -/
def pkgSatisfiesDep (p : Package) (dep : DepToken) : Bool :=
  (provEntries p).any (fun e => entrySatisfies e dep)

/-! ## Python dicts and sets

`dict`s keyed by package name are modelled as insertion-ordered association
lists: updating an existing key keeps its position, a new key is appended
(Python 3.7 dict semantics).  `set`s are modelled as insertion-ordered
duplicate-free lists. -/

/-- The model of `dict` mapping package names to packages. -/
abbrev Dict := List (String × Package)

/-- Lookup of a key in a dict. -/
def dictLookup : Dict → String → Option Package
  | [], _ => none
  | (k', v) :: rest, k => if k' = k then some v else dictLookup rest k

/-- Update-or-append of a key: an existing key keeps its position, a new
key is appended at the end. -/
def dictInsert : Dict → String → Package → Dict
  | [], k, v => [(k, v)]
  | (k', v') :: rest, k, v =>
    if k' = k then (k, v) :: rest else (k', v') :: dictInsert rest k v

/-- Deletion of a key. -/
def dictErase : Dict → String → Dict
  | [], _ => []
  | (k', v) :: rest, k =>
    if k' = k then dictErase rest k else (k', v) :: dictErase rest k

/-- The value sequence of a dict, in insertion order. -/
def dictValues (d : Dict) : List Package :=
  d.map Prod.snd

/-- The keys of a dict are pairwise distinct. -/
def keysNodup (d : Dict) : Prop :=
  (d.map Prod.fst).Nodup

/-- Every entry's key is the stored package's name. -/
def keysMatch (d : Dict) : Prop :=
  ∀ kv ∈ d, (kv.2).name = kv.1

instance (d : Dict) : Decidable (keysNodup d) := by
  unfold keysNodup; infer_instance

instance (d : Dict) : Decidable (keysMatch d) := by
  unfold keysMatch; infer_instance

/-- Insert-if-absent, the model of Python `set.add` under a fixed
insertion order. -/
def insertIfAbsent {α : Type} [DecidableEq α] (l : List α) (a : α) : List α :=
  if a ∈ l then l else l ++ [a]

/-- The model of building a Python `set` from a list: first-occurrence
deduplication. -/
def setOfList {α : Type} [DecidableEq α] (l : List α) : List α :=
  l.foldl insertIfAbsent []

/-- The model of Python set union `s |= t` (fold `t` into `s`). -/
def setUnion {α : Type} [DecidableEq α] (s t : List α) : List α :=
  t.foldl insertIfAbsent s

/-! ## The package universe (`aurman.classes.System`)

Modelled from the spec, sections 3 and 4.3: `by_name`
(`all_packages_dict`) is built with last-write-wins on duplicate names,
and `provides_index` is built by appending every entity under each of its
capability names in insertion order. -/

/-- The provider index: capability name to the ordered providing packages. -/
abbrev ProvIndex := List (String × List Package)

/-- Append package `p` under key `k` of the provider index, creating the
entry at the end if the key is new. -/
def provAppend : ProvIndex → String → Package → ProvIndex
  | [], k, p => [(k, [p])]
  | (k', ps) :: rest, k, p =>
    if k' = k then (k', ps ++ [p]) :: rest else (k', ps) :: provAppend rest k p

/-- The ordered provider list stored under key `k`. -/
def provLookup : ProvIndex → String → List Package
  | [], _ => []
  | (k', ps) :: rest, k => if k' = k then ps else provLookup rest k

/-- Build `all_packages_dict` from an entity list, last write wins. -/
def buildDict (ps : List Package) : Dict :=
  ps.foldl (fun acc p => dictInsert acc p.name p) []

/-- Build the provider index from an entity list, appending every entity
under each of its capability names (own name first) in insertion order. -/
def buildProvIndex (ps : List Package) : ProvIndex :=
  ps.foldl (fun acc p =>
    (provEntries p).foldl (fun acc2 e => provAppend acc2 e.name p) acc) []

/-- Modelled from the spec, section 3: a `PackageUniverse`
(`aurman.classes.System`), an indexed snapshot of package entities. -/
structure System where
  all_packages_dict : Dict
  provides_index : ProvIndex
deriving DecidableEq, Repr

/-- Modelled from the spec, section 4.3: `construct(entities)` builds both
indices from scratch. -/
def mkSystem (ps : List Package) : System :=
  { all_packages_dict := buildDict ps, provides_index := buildProvIndex ps }

/-- Modelled from the spec, section 4.3: `provided_by(dependency)` is the
ordered entry of `provides_index` at the dependency's name, filtered to
the entities whose provided version satisfies the comparator. -/
def System.provided_by (sys : System) (dep : DepToken) : List Package :=
  (provLookup sys.provides_index dep.name).filter (fun p => pkgSatisfiesDep p dep)

/-- The packages of a system, in index order. -/
def sysValues (sys : System) : List Package :=
  dictValues sys.all_packages_dict

/-- Modelled from the spec, section 4.2: the installed community-catalog
(release) packages of a system. -/
def System.aur_packages_list (sys : System) : List Package :=
  (sysValues sys).filter (fun p => p.variant == PackageVariant.sourceBuild)

/-- Modelled from the spec, section 4.2: the installed community-catalog
devel packages of a system. -/
def System.devel_packages_list (sys : System) : List Package :=
  (sysValues sys).filter (fun p => p.variant == PackageVariant.sourceBuildDevel)

/-! ## Errors

Every `sys.exit(1)` and uncaught exception of `process` is embedded as a
distinct error value. -/

/-- The fatal outcomes of `process`. -/
inductive ProcErr where
  | invalidUsage
  | nothingToDo
  | repoAndAur
  | fetchFailed (name : String)
  | noProvider (tok : DepToken)
  | ambiguousProvider (tok : DepToken) (providers : List String)
  | holdpkgNotUpstream (name : String)
  | missingKey (name : String)
  | assertUpstreamMissing (name : String)
  | cyclicDependency
  | unsatisfiable
deriving DecidableEq, Repr

/-- Modelled from the spec: `aurman.utilities.strip_versioning_from_name`
(not in the repository snapshot) strips any version qualifier from a
user token, leaving the bare name. -/
def strip_versioning_from_name (t : DepToken) : String :=
  t.name

/-! ## `sanitize_user_input` (main_solver.py, lines 16-48)

Direct translation of the source: each token is passed whole to
`provided_by`; with no provider the run aborts, with a single provider its
name is taken, with several providers the bare name must itself be a
provider's name, otherwise the run aborts with the provider list.  The
Python error message maps each provider name through the external
`repo_of_package` for display; the error value here carries the provider
name list itself. -/

/-- Loop body of `sanitize_user_input`, accumulating the name set. -/
def sanitizeAux (system : System) : List DepToken → List String →
    Except ProcErr (List String)
  | [], acc => Except.ok acc
  | tok :: rest, acc =>
    match system.provided_by tok with
    | [] => Except.error (ProcErr.noProvider tok)
    | [p] => sanitizeAux system rest (insertIfAbsent acc p.name)
    | providers =>
      let dep_name := strip_versioning_from_name tok
      let providers_names := providers.map Package.name
      if dep_name ∈ providers_names then
        sanitizeAux system rest (insertIfAbsent acc dep_name)
      else
        Except.error (ProcErr.ambiguousProvider tok providers_names)

/-- `sanitize_user_input` of main_solver.py, lines 16-48. -/
def sanitize_user_input (user_input : List DepToken) (system : System) :
    Except ProcErr (List String) :=
  sanitizeAux system user_input []

/-- Equality of embedded run outcomes is decidable. -/
instance {e a : Type} [DecidableEq e] [DecidableEq a] :
    DecidableEq (Except e a) := fun x y => by
  cases x <;> cases y
  case error.error u v => exact decidable_of_iff (u = v) (by simp)
  case error.ok u v => exact isFalse (by simp)
  case ok.error u v => exact isFalse (by simp)
  case ok.ok u v => exact decidable_of_iff (u = v) (by simp)

/-! ## The holdpkg phase (main_solver.py, lines 109-122)

User targets are canonicalized against the upstream system, holdpkg names
against the installed system; a hold name unknown upstream aborts the run;
the surviving hold names are folded into the target set. -/

/-- The loop of lines 115-119: the first hold name missing from the
upstream dict, if any. -/
def findUnknownHold (upstreamDict : Dict) (holdNames : List String) :
    Option String :=
  holdNames.find? (fun n => (dictLookup upstreamDict n).isNone)

/-- Lines 109-122 of main_solver.py: sanitize targets and holdpkg names,
abort on a hold name unknown upstream, else union the hold names into the
target name set. -/
def holdpkgPhase (upstream installed : System)
    (targets holds : List DepToken) : Except ProcErr (List String) :=
  match sanitize_user_input targets upstream with
  | Except.error e => Except.error e
  | Except.ok sanitized =>
    match sanitize_user_input holds installed with
    | Except.error e => Except.error e
    | Except.ok holdNames =>
      match findUnknownHold upstream.all_packages_dict holdNames with
      | some n => Except.error (ProcErr.holdpkgNotUpstream n)
      | none => Except.ok (setUnion sanitized holdNames)

/-! ## The ignore phase (main_solver.py, lines 124-147)

`Package.get_ignored_packages_names` is not in the repository snapshot and
is modelled below.  Line 128 subtracts the explicitly requested names.
The loop of lines 129-143 edits `upstream_system.all_packages_dict` in
place: an ignored name present upstream is overwritten with the installed
entity when installed, deleted otherwise; a name absent upstream is left
alone.  Lines 146-147 then rebuild the system from the patched dict when
the effective ignore set is nonempty. -/

/-- Modelled from the spec, section 6: `Package.get_ignored_packages_names`
expands the `ignore` entries and the members of every `ignoregroup` entry
(group membership supplied by an external oracle) into a name set. -/
def get_ignored_packages_names (ignore : List String)
    (ignoregroup : List String) (groupMembers : String → List String) :
    List String :=
  setOfList (ignore ++ ignoregroup.flatMap groupMembers)

/-- Line 128 of main_solver.py: explicitly typed-in names are dropped from
the ignore set. -/
def effectiveIgnore (ignored sanitized : List String) : List String :=
  ignored.filter (fun n => n ∉ sanitized)

/-- The dict-level content of the loop of lines 129-143: for each ignored
name present in the (current) dict, replace the entry with the installed
entity when the name is installed, delete it otherwise. -/
def ignoreFold (installedDict : Dict) (ignored : List String) (d : Dict) :
    Dict :=
  ignored.foldl (fun acc n =>
    if (dictLookup acc n).isSome then
      match dictLookup installedDict n with
      | some p => dictInsert acc n p
      | none => dictErase acc n
    else acc) d

/-- Lines 129-147 of main_solver.py as a value-level function: patch the
dict, then, when the ignore set is nonempty, rebuild the system from the
patched entity values; with an empty ignore set the system is untouched. -/
def ignorePatch (installedDict : Dict) (upstream : System)
    (ignored : List String) : System :=
  let d := ignoreFold installedDict ignored upstream.all_packages_dict
  if ignored.isEmpty then upstream else mkSystem (dictValues d)

/-! ## The heap model of the ignore phase

The statements `upstream_system.all_packages_dict[name] = ...` (line 136)
and `del upstream_system.all_packages_dict[name]` (line 143) mutate the
dict attribute of the existing `System` object, while line 147 binds
`upstream_system` to a newly constructed object.  To talk about object
identity, systems live in a heap of objects addressed by allocation
index. -/

/-- The mutable attribute state of one `System` object. -/
structure SystemObj where
  all_packages_dict : Dict
  provides_index : ProvIndex
deriving DecidableEq, Repr

instance : Inhabited SystemObj :=
  ⟨{ all_packages_dict := [], provides_index := [] }⟩

/-- A heap of `System` objects; the address of an object is its
allocation index. -/
structure Heap where
  objs : List SystemObj
deriving DecidableEq, Repr

/-- The object stored at address `i`. -/
def Heap.getObj (h : Heap) (i : Nat) : SystemObj :=
  h.objs.getD i default

/-- Overwrite the `all_packages_dict` attribute of the object at address
`i` (the Python attribute assignment). -/
def Heap.setDict (h : Heap) (i : Nat) (d : Dict) : Heap :=
  ⟨h.objs.set i { h.getObj i with all_packages_dict := d }⟩

/-- Allocate a new object, returning the heap and the fresh address. -/
def Heap.alloc (h : Heap) (s : SystemObj) : Heap × Nat :=
  (⟨h.objs ++ [s]⟩, h.objs.length)

/-- `System(entities)` as an object constructor. -/
def mkSystemObj (ps : List Package) : SystemObj :=
  { all_packages_dict := buildDict ps, provides_index := buildProvIndex ps }

/-- The loop of lines 129-143 on the heap: each iteration reads the dict
attribute of the object at `uid` and mutates it in place. -/
def ignoreLoopHeap (installedDict : Dict) (ignored : List String)
    (h : Heap) (uid : Nat) : Heap :=
  ignored.foldl (fun hh n =>
    let d := (hh.getObj uid).all_packages_dict
    if (dictLookup d n).isSome then
      match dictLookup installedDict n with
      | some p => hh.setDict uid (dictInsert d n p)
      | none => hh.setDict uid (dictErase d n)
    else hh) h

/-- Lines 129-147 on the heap: run the mutating loop, then, when the
ignore set is nonempty, allocate the freshly rebuilt system of line 147
and return its address; with an empty ignore set the old address is
returned. -/
def ignorePhaseHeap (installedDict : Dict) (ignored : List String)
    (h : Heap) (uid : Nat) : Heap × Nat :=
  let h1 := ignoreLoopHeap installedDict ignored h uid
  if ignored.isEmpty then (h1, uid)
  else h1.alloc (mkSystemObj (dictValues ((h1.getObj uid).all_packages_dict)))

/-! ## The needed phase (main_solver.py, lines 149-161)

Every sanitized name is looked up in the upstream dict (a missing key is
the Python `KeyError`, which `main` turns into an exit); with `--needed`
the candidates already installed at a version not lower than the upstream
one are dropped. -/

/-- The list comprehension of lines 151/153: look up every sanitized name,
failing on the first missing key. -/
def lookupAll (d : Dict) : List String → Except ProcErr (List Package)
  | [] => Except.ok []
  | n :: ns =>
    match dictLookup d n with
    | some p =>
      match lookupAll d ns with
      | Except.ok ps => Except.ok (p :: ps)
      | Except.error e => Except.error e
    | none => Except.error (ProcErr.missingKey n)

/-- The `--needed` filter predicate of lines 156-161: keep a candidate
that is not installed, or installed at a strictly lower version. -/
def neededKeep (installedDict : Dict) (p : Package) : Bool :=
  match dictLookup installedDict p.name with
  | some installed_package =>
    version_comparison installed_package.version Comp.lt p.version
  | none => true

/-- Lines 149-161 of main_solver.py: the concrete packages to install. -/
def choosePackages (needed : Bool) (installedDict upstreamDict : Dict)
    (sanitized : List String) : Except ProcErr (List Package) :=
  match lookupAll upstreamDict sanitized with
  | Except.error e => Except.error e
  | Except.ok possible =>
    if needed then Except.ok (possible.filter (neededKeep installedDict))
    else Except.ok possible

/-! ## The sysupgrade phase (main_solver.py, lines 163-173)

With `-u` and not `--repo`, every installed community-catalog package whose
upstream version is strictly newer is appended, skipping packages already
present; the `assert` of line 169 is a fatal error. -/

/-- The loop of lines 167-173: fold the upgradable installed
community-catalog packages into the accumulator. -/
def upgradeCandidates (upstreamDict : Dict) :
    List Package → List Package → Except ProcErr (List Package)
  | [], acc => Except.ok acc
  | p :: ps, acc =>
    match dictLookup upstreamDict p.name with
    | none => Except.error (ProcErr.assertUpstreamMissing p.name)
    | some upstream_package =>
      if version_comparison upstream_package.version Comp.gt p.version then
        if upstream_package ∈ acc then upgradeCandidates upstreamDict ps acc
        else upgradeCandidates upstreamDict ps (acc ++ [upstream_package])
      else upgradeCandidates upstreamDict ps acc

/-- Lines 163-173 of main_solver.py. -/
def sysupgradeFold (sysupgrade repo : Bool) (installed : System)
    (upstreamDict : Dict) (concrete : List Package) :
    Except ProcErr (List Package) :=
  if sysupgrade && !repo then
    upgradeCandidates upstreamDict
      (installed.aur_packages_list ++ installed.devel_packages_list) concrete
  else Except.ok concrete

/-! ## The dependency solver (`Package.dep_solving`)

Modelled from the spec, section 4.4: deterministic depth-first
backtracking over the pending dependencies, forking over the candidate
providers in the universe's index order; a partial state violating name
uniqueness or the conflict rules is pruned at insertion; the recursion
depth is bounded (spec: by the number of distinct names in the universe),
with exhaustion a fatal `CyclicDependencyError`. -/

/-- Do two packages conflict (either declares a conflict the other
satisfies)? -/
def conflictBetween (p q : Package) : Bool :=
  p.conflicts.any (fun d => pkgSatisfiesDep q d) ||
    q.conflicts.any (fun d => pkgSatisfiesDep p d)

/-- Is the dependency satisfied by a member of the partial solution? -/
def depSatisfiedByList (sol : List Package) (d : DepToken) : Bool :=
  sol.any (fun p => pkgSatisfiesDep p d)

/-- Is the dependency satisfied by some entity of the base universe? -/
def baseSatisfies (base : System) (d : DepToken) : Bool :=
  (sysValues base).any (fun p => pkgSatisfiesDep p d)

/-- Modelled from the spec, section 4.4 (c): a candidate is viable when
its name is not yet in the partial solution, it conflicts with no member,
and it conflicts with no base entity of a different name. -/
def candidateOk (sol : List Package) (base : System) (c : Package) : Bool :=
  !(sol.any (fun p => p.name == c.name)) &&
    !(sol.any (fun p => conflictBetween c p)) &&
    !((sysValues base).any (fun b => b.name != c.name && conflictBetween c b))

/-- Combine the branch results in candidate order; the first fatal error
wins, otherwise the solution lists are concatenated. -/
def collectSolutions :
    List (Except ProcErr (List (List Package))) →
    Except ProcErr (List (List Package))
  | [] => Except.ok []
  | Except.error e :: _ => Except.error e
  | Except.ok ls :: rest =>
    match collectSolutions rest with
    | Except.ok more => Except.ok (ls ++ more)
    | Except.error e => Except.error e

/-- Modelled from the spec, section 4.4: the depth-first search.  `sol` is
the partial solution (most recent choice first), `pending` the dependency
queue in fixed order; a dependency already satisfied by the partial
solution or the base is skipped, otherwise the search forks over the
viable providers in index order; exhausted fuel is the fatal
`CyclicDependencyError`. -/
def solveDeps (base univ : System) :
    Nat → List Package → List DepToken → Except ProcErr (List (List Package))
  | 0, _, _ => Except.error ProcErr.cyclicDependency
  | Nat.succ fuel, sol, [] => (fun _ => Except.ok [sol.reverse]) fuel
  | Nat.succ fuel, sol, d :: rest =>
    if depSatisfiedByList sol d || baseSatisfies base d then
      solveDeps base univ fuel sol rest
    else
      collectSolutions
        (((univ.provided_by d).filter (candidateOk sol base)).map
          (fun c => solveDeps base univ fuel (c :: sol) (c.depends ++ rest)))
termination_by fuel _ _ => fuel
decreasing_by all_goals omega

/-- The dependency a target package itself stands for. -/
def targetDep (p : Package) : DepToken :=
  { name := p.name, constraint := some (Comp.eq, p.version) }

/-- Modelled from the spec, section 4.4: the recursion-depth budget,
a conservative arithmetic denotation of the bound by the number of
distinct names in the universe. -/
def solverFuel (univ : System) (targets : List Package) : Nat :=
  (univ.all_packages_dict.length + 1) *
    ((sysValues univ).foldl (fun n p => n + p.depends.length + 1) 0 +
      targets.length + 1)

/-- Modelled from the spec, section 4.4: `Package.dep_solving(targets,
base, universe)` (called at lines 176-179 of main_solver.py). -/
def dep_solving (targets : List Package) (base univ : System) :
    Except ProcErr (List (List Package)) :=
  solveDeps base univ (solverFuel univ targets) []
    (targets.map targetDep)

/-! ## The validator (`System.validate_solutions`)

Modelled from the spec, section 4.5: a candidate survives when adopting it
leaves no un-replaced installed package with an unsatisfied dependency and
conflicts with no un-replaced installed package; survivors are paired with
their source candidate in solver order. -/

/-- The system contents after adopting a solution: the solution members
plus the installed packages not replaced by name. -/
def adoptedPackages (installed : System) (sol : List Package) :
    List Package :=
  sol ++ (sysValues installed).filter
    (fun ip => !(sol.any (fun m => m.name == ip.name)))

/-- Modelled from the spec, section 4.5: does the candidate solution keep
the installed system intact? -/
def solutionOk (installed : System) (sol : List Package) : Bool :=
  ((sysValues installed).all (fun ip =>
      sol.any (fun m => m.name == ip.name) ||
        ip.depends.all (fun d =>
          (adoptedPackages installed sol).any (fun q => pkgSatisfiesDep q d)))) &&
    (sol.all (fun m =>
      (sysValues installed).all (fun ip =>
        ip.name == m.name || !(conflictBetween m ip))))

/-- Modelled from the spec, section 4.5:
`installed_system.validate_solutions(solutions, targets)` returns the
surviving solutions paired with their source candidate, in solver order;
`targets` is carried for diagnostics only. -/
def validate_solutions (installed : System)
    (solutions : List (List Package)) (targets : List Package) :
    List (List Package × List Package) :=
  let _ := targets
  solutions.filterMap (fun sol =>
    if solutionOk installed sol then some (sol, sol) else none)

/-- Lines 181-187 of main_solver.py: keep the second component of every
validator pair; zero survivors is the reported no-valid-solution error. -/
def finalizeSolutions (installed : System) (targets : List Package)
    (solutions : List (List Package)) :
    Except ProcErr (List (List Package)) :=
  let valid := (validate_solutions installed solutions targets).map Prod.snd
  if valid.isEmpty then Except.error ProcErr.unsatisfiable
  else Except.ok valid

/-! ## Catalog fetching (`System.append_packages_by_name`)

Modelled from the spec, section 4.3: names not already present are fetched
from the community catalog; a fetch failure is fatal only for explicitly
user-requested names, otherwise the name is silently skipped. -/

/-- Collect the fetched packages for the names not already known, in name
order. -/
def fetchMissing (known : Dict) (fetch : String → Option Package)
    (fatal : Bool) : List String → Except ProcErr (List Package)
  | [] => Except.ok []
  | n :: ns =>
    if (dictLookup known n).isSome then fetchMissing known fetch fatal ns
    else
      match fetch n with
      | some p =>
        match fetchMissing known fetch fatal ns with
        | Except.ok ps => Except.ok (p :: ps)
        | Except.error e => Except.error e
      | none =>
        if fatal then Except.error (ProcErr.fetchFailed n)
        else fetchMissing known fetch fatal ns

/-- Modelled from the spec, section 4.3: `append_by_name(names)`; the
universe is rebuilt over the old entities plus the fetched ones. -/
def append_packages_by_name (sys : System) (fetch : String → Option Package)
    (names : List String) (fatal : Bool) : Except ProcErr System :=
  match fetchMissing sys.all_packages_dict fetch fatal names with
  | Except.ok newPkgs =>
    Except.ok (mkSystem (dictValues sys.all_packages_dict ++ newPkgs))
  | Except.error e => Except.error e

/-! ## `process` (main_solver.py, lines 51-189) -/

/-- The parsed command-line arguments consumed by `process`; user tokens
are embedded already parsed into `DepToken`s. -/
structure Args where
  operation_sync : Bool
  invalid_args : Bool
  targets : List DepToken
  sysupgrade : Bool
  needed : Bool
  deep_search : Bool
  holdpkg : List DepToken
  holdpkg_conf : Bool
  aur : Bool
  repo : Bool
  ignore : List String
  ignoregroup : List String

/-- The external world `process` reads: the local package database, the
official catalog, the community-catalog fetcher, the `HoldPkg` entries of
pacman.conf, and the ignoregroup membership oracle. -/
structure Env where
  installed_packages : List Package
  repo_packages : List Package
  fetchAur : String → Option Package
  holdpkg_conf_packages : List DepToken
  groupMembers : String → List String

/-- `process(args)` of main_solver.py, lines 51-189, as a function from
the parsed arguments and the external world to either a fatal error (every
`sys.exit(1)` and uncaught exception) or the printed valid-solution list.
The `--domain` handling of lines 84-85 only selects the community-catalog
endpoint and is absorbed into `Env.fetchAur`. -/
def process (args : Args) (env : Env) :
    Except ProcErr (List (List Package)) := do
  if !args.operation_sync || args.invalid_args then
    throw ProcErr.invalidUsage
  let packages_of_user_names := setOfList args.targets
  if !args.sysupgrade && packages_of_user_names.isEmpty then
    throw ProcErr.nothingToDo
  let needed := args.needed
  let only_unfulfilled_deps := !args.deep_search
  let not_remove := args.holdpkg ++
    (if args.holdpkg_conf then env.holdpkg_conf_packages else [])
  let not_remove := setOfList not_remove
  if args.repo && args.aur then
    throw ProcErr.repoAndAur
  let installed_system := mkSystem env.installed_packages
  let upstream0 :=
    if !args.aur then mkSystem env.repo_packages else mkSystem []
  let upstream1 ←
    if !args.repo then do
      let u ← append_packages_by_name upstream0 env.fetchAur
        (packages_of_user_names.map DepToken.name) true
      let names_of_installed_aur_packages :=
        (installed_system.aur_packages_list ++
          installed_system.devel_packages_list).map Package.name
      append_packages_by_name u env.fetchAur
        names_of_installed_aur_packages false
    else pure upstream0
  let sanitized_names ←
    holdpkgPhase upstream1 installed_system packages_of_user_names not_remove
  let ignored_packages_names :=
    get_ignored_packages_names args.ignore args.ignoregroup env.groupMembers
  let ignored_packages_names :=
    effectiveIgnore ignored_packages_names sanitized_names
  let upstream2 :=
    ignorePatch installed_system.all_packages_dict upstream1
      ignored_packages_names
  let concrete ←
    choosePackages needed installed_system.all_packages_dict
      upstream2.all_packages_dict sanitized_names
  let concrete ←
    sysupgradeFold args.sysupgrade args.repo installed_system
      upstream2.all_packages_dict concrete
  let solutions ←
    if only_unfulfilled_deps then
      dep_solving concrete installed_system upstream2
    else
      dep_solving concrete (mkSystem []) upstream2
  finalizeSolutions installed_system concrete solutions

/-! ## Claim statements taken from the spec's words

The following predicates state claims from the specification verbatim, to
be compared with the behaviour of the translated code. -/

/-- The bare-name token obtained by stripping the version qualifier. -/
def bareTok (tok : DepToken) : DepToken :=
  { name := strip_versioning_from_name tok, constraint := none }

/-- Claim C2 as the spec states it, at one input: canonicalization
considers exactly the providers of the version-stripped bare name
(independent of the token's constraint), and with exactly one such
provider it returns that provider's canonical name. -/
def claimC2At (sys : System) (tok : DepToken) : Prop :=
  sys.provided_by tok = sys.provided_by (bareTok tok) ∧
    ((sys.provided_by (bareTok tok)).length = 1 →
      sanitize_user_input [tok] sys =
        Except.ok ((sys.provided_by (bareTok tok)).map Package.name))

instance (sys : System) (tok : DepToken) : Decidable (claimC2At sys tok) := by
  unfold claimC2At; infer_instance

/-- Claim C4 as the spec states it, at one input: every name of the
effective ignore set ends up frozen to the installed entity when
installed, and absent from the upstream universe when not installed. -/
def claimC4At (installedDict : Dict) (upstream : System)
    (ignored : List String) : Prop :=
  ∀ n ∈ ignored,
    (dictLookup installedDict n ≠ none →
      dictLookup (ignorePatch installedDict upstream ignored).all_packages_dict n =
        dictLookup installedDict n) ∧
    (dictLookup installedDict n = none →
      dictLookup (ignorePatch installedDict upstream ignored).all_packages_dict n =
        none)

instance (installedDict : Dict) (upstream : System) (ignored : List String) :
    Decidable (claimC4At installedDict upstream ignored) := by
  unfold claimC4At; infer_instance

/-- Claim C5 as the spec states it, at one input: applying the
ignore-list patch never edits the original universe object's indices in
place, i.e. the object at the original address is unchanged. -/
def claimC5At (installedDict : Dict) (ignored : List String) (h : Heap)
    (uid : Nat) : Prop :=
  (ignorePhaseHeap installedDict ignored h uid).1.getObj uid = h.getObj uid

instance (installedDict : Dict) (ignored : List String) (h : Heap) (uid : Nat) :
    Decidable (claimC5At installedDict ignored h uid) := by
  unfold claimC5At; infer_instance

/-- Claim C7 as the spec states it, at one input: with sysupgrade
requested, every installed catalog-tracked package (any variant other
than `LocalUnknown`) with a strictly newer upstream version ends up among
the packages to install. -/
def claimC7At (sysupgrade repo : Bool) (installed : System)
    (upstreamDict : Dict) (concrete : List Package) : Prop :=
  sysupgrade = true →
    ∀ p ∈ sysValues installed, p.variant ≠ PackageVariant.localUnknown →
      ∀ up, dictLookup upstreamDict p.name = some up →
        version_comparison up.version Comp.gt p.version = true →
        ∀ res,
          sysupgradeFold sysupgrade repo installed upstreamDict concrete =
            Except.ok res →
          up ∈ res

/-! ## Concrete sample data for witnesses and counterexamples -/

/-- A version with a single numeric run. -/
def ver (n : Nat) : Version :=
  { epoch := 0, pkgver := [Run.num n], pkgrel := 0 }

/-- A dependency-free package at a single-run version. -/
def mkPkg (name : String) (n : Nat) (variant : PackageVariant) : Package :=
  { name := name, version := ver n, variant := variant,
    depends := [], conflicts := [], provides := [] }

/-- Sample arguments for the determinism witness. -/
def sampleArgs : Args :=
  { operation_sync := true, invalid_args := false,
    targets := [{ name := "alpha", constraint := none }],
    sysupgrade := false, needed := false, deep_search := false,
    holdpkg := [], holdpkg_conf := false, aur := false, repo := false,
    ignore := [], ignoregroup := [] }

/-- Sample environment for the determinism witness. -/
def sampleEnv : Env :=
  { installed_packages := [],
    repo_packages := [mkPkg "alpha" 1 PackageVariant.repoPkg],
    fetchAur := fun _ => none, holdpkg_conf_packages := [],
    groupMembers := fun _ => [] }

/-- A universe holding only `foo` at version 1. -/
def sysC2 : System := mkSystem [mkPkg "foo" 1 PackageVariant.repoPkg]

/-- The user token `foo>1`. -/
def tokC2 : DepToken := { name := "foo", constraint := some (Comp.gt, ver 1) }

/-- The user token `foo>0`. -/
def tokC2w : DepToken := { name := "foo", constraint := some (Comp.gt, ver 0) }

/-- A package named after the capability `cap`. -/
def pkgCap : Package := mkPkg "cap" 1 PackageVariant.repoPkg

/-- A differently named package also providing `cap`. -/
def pkgOther : Package :=
  { name := "other", version := ver 1, variant := PackageVariant.repoPkg,
    depends := [], conflicts := [],
    provides := [{ name := "cap", constraint := some (Comp.eq, ver 1) }] }

/-- A universe where `cap` has two providers, one of them named `cap`. -/
def sysC3 : System := mkSystem [pkgCap, pkgOther]

/-- The unversioned user token `cap`. -/
def tokC3 : DepToken := { name := "cap", constraint := none }

/-- An installed dict holding `a` at version 2. -/
def instD4 : Dict := [("a", mkPkg "a" 2 PackageVariant.repoPkg)]

/-- An upstream universe holding `a` at version 1. -/
def upC4 : System := mkSystem [mkPkg "a" 1 PackageVariant.repoPkg]

/-- A heap holding one upstream system object with `a` at version 1. -/
def heap5 : Heap := ⟨[mkSystemObj [mkPkg "a" 1 PackageVariant.repoPkg]]⟩

/-- An installed dict holding `a` at version 2 (newer than upstream). -/
def instD6 : Dict := [("a", mkPkg "a" 2 PackageVariant.repoPkg)]

/-- An upstream dict holding `a` at version 1. -/
def upD6 : Dict := [("a", mkPkg "a" 1 PackageVariant.repoPkg)]

/-- An installed system with an official-catalog package `r` at version 1. -/
def instC7 : System := mkSystem [mkPkg "r" 1 PackageVariant.repoPkg]

/-- An upstream dict carrying `r` at the newer version 2. -/
def upD7 : Dict := [("r", mkPkg "r" 2 PackageVariant.repoPkg)]

/-- An installed system with a community-catalog package `s` at version 1. -/
def instC7w : System := mkSystem [mkPkg "s" 1 PackageVariant.sourceBuild]

/-- An upstream dict carrying `s` at the newer version 2. -/
def upD7w : Dict := [("s", mkPkg "s" 2 PackageVariant.sourceBuild)]

/-- An installed system holding the holdpkg target `h`. -/
def instC10 : System := mkSystem [mkPkg "h" 1 PackageVariant.repoPkg]

/-- An upstream system also knowing `h`. -/
def upC10 : System := mkSystem [mkPkg "h" 2 PackageVariant.repoPkg]

/-- An upstream system holding the explicitly requested `e`. -/
def upC9 : System := mkSystem [mkPkg "e" 1 PackageVariant.repoPkg]

/-- An installed dict holding `e` at version 0. -/
def instD9 : Dict := [("e", mkPkg "e" 0 PackageVariant.repoPkg)]

/-! # Claim theorems -/

/-! ## Claim C1: determinism of resolution -/

/-- Claim C1: resolution is deterministic: the embedded pipeline is a pure
function of the parsed arguments and the external world, so two runs on
identical inputs produce identical ordered output, including the order of
the returned solutions. -/
theorem claim_C1_determinism (a1 a2 : Args) (e1 e2 : Env)
    (ha : a1 = a2) (he : e1 = e2) : process a1 e1 = process a2 e2 := by
  subst ha
  subst he
  rfl

/-- Witness for claim C1 at a concrete argument/environment pair. -/
theorem claim_C1_witness :
    process sampleArgs sampleEnv = process sampleArgs sampleEnv :=
  claim_C1_determinism sampleArgs sampleArgs sampleEnv sampleEnv rfl rfl

/-! ## Claim C2: canonicalization and version stripping -/

/-- Counterexample to claim C2: for the token `foo>1` against a universe
whose only package is `foo` at version 1, the bare name `foo` has exactly
one provider, yet `sanitize_user_input` passes the full token to
`provided_by`, obtains no provider satisfying `>1`, and aborts with a
no-provider error instead of returning `foo`. -/
theorem claim_C2_counterexample : ¬ claimC2At sysC2 tokC2 := by decide

/-- Claim C2 as amended: canonicalization passes the full token to
`provided_by`, so the providers considered are the entries of the provider
index at the bare name filtered by the token's version constraint; when
exactly one such provider exists, its canonical name is returned. -/
theorem claim_C2_amended (sys : System) (tok : DepToken) (p : Package)
    (h : sys.provided_by tok = [p]) :
    sanitize_user_input [tok] sys = Except.ok [p.name] ∧
      sys.provided_by tok =
        (provLookup sys.provides_index (strip_versioning_from_name tok)).filter
          (fun q => pkgSatisfiesDep q tok) := by
  constructor
  · unfold sanitize_user_input
    simp only [sanitizeAux, h]
    simp [sanitizeAux, insertIfAbsent]
  · rfl

/-- Witness for the amended claim C2: the token `foo>0` has exactly one
provider (`foo` at version 1) and canonicalizes to `foo`. -/
theorem claim_C2_amended_witness :
    sysC2.provided_by tokC2w = [mkPkg "foo" 1 PackageVariant.repoPkg] ∧
      (sanitize_user_input [tokC2w] sysC2 =
          Except.ok [(mkPkg "foo" 1 PackageVariant.repoPkg).name] ∧
        sysC2.provided_by tokC2w =
          (provLookup sysC2.provides_index
              (strip_versioning_from_name tokC2w)).filter
            (fun q => pkgSatisfiesDep q tokC2w)) :=
  ⟨by decide,
    claim_C2_amended sysC2 tokC2w (mkPkg "foo" 1 PackageVariant.repoPkg)
      (by decide)⟩

/-! ## Claim C3: the multi-provider branch of canonicalization -/

/-- Claim C3: with more than one provider, canonicalization succeeds
exactly when some provider's own name equals the version-stripped bare
name, returning that bare name, and otherwise fails with the
ambiguous-provider error carrying the full provider list. -/
theorem claim_C3_ambiguous (sys : System) (tok : DepToken)
    (h : 1 < (sys.provided_by tok).length) :
    ((∃ r, sanitize_user_input [tok] sys = Except.ok r) ↔
        strip_versioning_from_name tok ∈
          (sys.provided_by tok).map Package.name) ∧
      (strip_versioning_from_name tok ∈
          (sys.provided_by tok).map Package.name →
        sanitize_user_input [tok] sys =
          Except.ok [strip_versioning_from_name tok]) ∧
      (strip_versioning_from_name tok ∉
          (sys.provided_by tok).map Package.name →
        sanitize_user_input [tok] sys =
          Except.error (ProcErr.ambiguousProvider tok
            ((sys.provided_by tok).map Package.name))) := by
  unfold sanitize_user_input
  rcases hp : sys.provided_by tok with _ | ⟨a, _ | ⟨b, t⟩⟩
  · rw [hp] at h
    simp at h
  · rw [hp] at h
    simp at h
  · by_cases hm :
        strip_versioning_from_name tok ∈ (a :: b :: t).map Package.name
    · have hred : sanitizeAux sys [tok] [] =
          Except.ok [strip_versioning_from_name tok] := by
        simp only [sanitizeAux, hp]
        rw [if_pos hm]
        simp [sanitizeAux, insertIfAbsent]
      refine ⟨⟨fun _ => hm, fun _ => ⟨_, hred⟩⟩, fun _ => hred,
        fun hc => absurd hm hc⟩
    · have hred : sanitizeAux sys [tok] [] =
          Except.error (ProcErr.ambiguousProvider tok
            ((a :: b :: t).map Package.name)) := by
        simp only [sanitizeAux, hp]
        rw [if_neg hm]
      refine ⟨⟨fun hr => ?_, fun hc => absurd hc hm⟩,
        fun hc => absurd hc hm, fun _ => hred⟩
      rcases hr with ⟨r, hr⟩
      rw [hred] at hr
      exact absurd hr (by simp)

/-- Witness for claim C3: the capability `cap` has the two providers
`cap` and `other`; the bare name `cap` is itself a provider name, so
canonicalization returns `cap`. -/
theorem claim_C3_witness :
    1 < (sysC3.provided_by tokC3).length ∧
      (((∃ r, sanitize_user_input [tokC3] sysC3 = Except.ok r) ↔
          strip_versioning_from_name tokC3 ∈
            (sysC3.provided_by tokC3).map Package.name) ∧
        (strip_versioning_from_name tokC3 ∈
            (sysC3.provided_by tokC3).map Package.name →
          sanitize_user_input [tokC3] sysC3 =
            Except.ok [strip_versioning_from_name tokC3]) ∧
        (strip_versioning_from_name tokC3 ∉
            (sysC3.provided_by tokC3).map Package.name →
          sanitize_user_input [tokC3] sysC3 =
            Except.error (ProcErr.ambiguousProvider tokC3
              ((sysC3.provided_by tokC3).map Package.name)))) :=
  ⟨by decide, claim_C3_ambiguous sysC3 tokC3 (by decide)⟩

/-! ## Claim C8: zero surviving solutions is a reported error -/

/-- Claim C8: when validation leaves zero surviving solutions the run
reports the single no-valid-solution error, and a successful run never
returns an empty solution list. -/
theorem claim_C8_no_silent_empty (installed : System)
    (targets : List Package) (solutions : List (List Package)) :
    ((validate_solutions installed solutions targets).map Prod.snd ≠ [] ∧
        finalizeSolutions installed targets solutions =
          Except.ok
            ((validate_solutions installed solutions targets).map Prod.snd)) ∨
      ((validate_solutions installed solutions targets).map Prod.snd = [] ∧
        finalizeSolutions installed targets solutions =
          Except.error ProcErr.unsatisfiable) := by
  rcases hv : (validate_solutions installed solutions targets).map Prod.snd
    with _ | ⟨sol, rest⟩
  · exact Or.inr ⟨rfl, by simp [finalizeSolutions, hv]⟩
  · exact Or.inl ⟨by simp, by simp [finalizeSolutions, hv]⟩

/-! ## Claim C6: the `--needed` filter -/

/-- The packages delivered by `lookupAll` contain the lookup result of
every requested name. -/
theorem lookupAll_mem (d : Dict) :
    ∀ (ns : List String) (ps : List Package),
      lookupAll d ns = Except.ok ps →
      ∀ n ∈ ns, ∀ p, dictLookup d n = some p → p ∈ ps := by
  intro ns
  induction ns with
  | nil =>
    intro ps h n hn
    simp at hn
  | cons m ms ih =>
    intro ps h n hn p hp
    cases hq : dictLookup d m with
    | none =>
      simp only [lookupAll, hq] at h
      exact absurd h (by simp)
    | some q =>
      cases hr : lookupAll d ms with
      | error e =>
        simp only [lookupAll, hq, hr] at h
        exact absurd h (by simp)
      | ok ps2 =>
        simp only [lookupAll, hq, hr, Except.ok.injEq] at h
        subst h
        rcases List.mem_cons.mp hn with h1 | h2
        · subst h1
          rw [hq] at hp
          have : q = p := by
            injection hp
          exact this ▸ List.mem_cons_self q ps2
        · exact List.mem_cons_of_mem q (ih ps2 hr n h2 p hp)

/-- Claim C6: with `--needed` set, a sanitized target whose upstream
candidate `p` exists is installed exactly when it is not yet installed or
is installed at a strictly lower version; a target installed at a version
not lower than the candidate is excluded. -/
theorem claim_C6_needed (installedDict upstreamDict : Dict)
    (sanitized : List String) (res : List Package) (n : String) (p : Package)
    (hres : choosePackages true installedDict upstreamDict sanitized =
      Except.ok res)
    (hn : n ∈ sanitized) (hp : dictLookup upstreamDict n = some p) :
    p ∈ res ↔
      (dictLookup installedDict p.name = none ∨
        ∃ ip, dictLookup installedDict p.name = some ip ∧
          version_comparison ip.version Comp.lt p.version = true) := by
  cases hla : lookupAll upstreamDict sanitized with
  | error e =>
    simp only [choosePackages, hla] at hres
    exact absurd hres (by simp)
  | ok possible =>
    simp only [choosePackages, hla, if_true, Except.ok.injEq] at hres
    subst hres
    rw [List.mem_filter]
    have hmem : p ∈ possible := lookupAll_mem _ _ _ hla n hn p hp
    constructor
    · rintro ⟨-, hkeep⟩
      unfold neededKeep at hkeep
      cases hi : dictLookup installedDict p.name with
      | none => exact Or.inl rfl
      | some ip =>
        rw [hi] at hkeep
        exact Or.inr ⟨ip, rfl, hkeep⟩
    · intro hr
      refine ⟨hmem, ?_⟩
      unfold neededKeep
      rcases hr with hnone | ⟨ip, hip, hcmp⟩
      · rw [hnone]
      · rw [hip]
        exact hcmp

/-- Witness for claim C6: `a` is installed at version 2 while upstream
has version 1, so with `--needed` it is excluded from the install list. -/
theorem claim_C6_witness :
    choosePackages true instD6 upD6 ["a"] = Except.ok [] ∧
      "a" ∈ ["a"] ∧
      dictLookup upD6 "a" = some (mkPkg "a" 1 PackageVariant.repoPkg) ∧
      (mkPkg "a" 1 PackageVariant.repoPkg ∈ ([] : List Package) ↔
        (dictLookup instD6 (mkPkg "a" 1 PackageVariant.repoPkg).name = none ∨
          ∃ ip, dictLookup instD6 (mkPkg "a" 1 PackageVariant.repoPkg).name =
              some ip ∧
            version_comparison ip.version Comp.lt
              (mkPkg "a" 1 PackageVariant.repoPkg).version = true)) :=
  ⟨by decide, by decide, by decide,
    claim_C6_needed instD6 upD6 ["a"] [] "a"
      (mkPkg "a" 1 PackageVariant.repoPkg) (by decide) (by decide) (by decide)⟩

/-! ## Claim C10: the holdpkg phase -/

/-- Membership is preserved by `insertIfAbsent`. -/
theorem mem_insertIfAbsent_of_mem {α : Type} [DecidableEq α] {l : List α}
    {x : α} (a : α) (h : x ∈ l) : x ∈ insertIfAbsent l a := by
  unfold insertIfAbsent
  split
  · exact h
  · exact List.mem_append_left _ h

/-- The inserted element is a member of `insertIfAbsent`. -/
theorem self_mem_insertIfAbsent {α : Type} [DecidableEq α] (l : List α)
    (a : α) : a ∈ insertIfAbsent l a := by
  unfold insertIfAbsent
  split
  next h => exact h
  next h => exact List.mem_append_right _ (List.mem_singleton_self a)

/-- Left members survive a set union. -/
theorem mem_setUnion_left {α : Type} [DecidableEq α] :
    ∀ (t s : List α) (x : α), x ∈ s → x ∈ setUnion s t := by
  intro t
  induction t with
  | nil =>
    intro s x h
    exact h
  | cons a t ih =>
    intro s x h
    exact ih _ _ (mem_insertIfAbsent_of_mem a h)

/-- Right members survive a set union. -/
theorem mem_setUnion_right {α : Type} [DecidableEq α] :
    ∀ (t s : List α) (x : α), x ∈ t → x ∈ setUnion s t := by
  intro t
  induction t with
  | nil =>
    intro s x h
    simp at h
  | cons a t ih =>
    intro s x h
    rcases List.mem_cons.mp h with h1 | h2
    · subst h1
      exact mem_setUnion_left t _ x (self_mem_insertIfAbsent s x)
    · exact ih _ _ h2

/-- Claim C10: holdpkg names are canonicalized against the installed
system; a canonical hold name missing from the upstream dict aborts the
run with a fatal error (the phase never reaches solving), otherwise every
hold name is folded into the target set. -/
theorem claim_C10_holdpkg (up inst : System) (targets holds : List DepToken)
    (T S : List String)
    (hT : sanitize_user_input targets up = Except.ok T)
    (hS : sanitize_user_input holds inst = Except.ok S) :
    ((∃ n ∈ S, dictLookup up.all_packages_dict n = none) →
        ∃ m ∈ S, holdpkgPhase up inst targets holds =
            Except.error (ProcErr.holdpkgNotUpstream m) ∧
          dictLookup up.all_packages_dict m = none) ∧
      ((∀ n ∈ S, dictLookup up.all_packages_dict n ≠ none) →
        holdpkgPhase up inst targets holds = Except.ok (setUnion T S) ∧
          ∀ n ∈ S, n ∈ setUnion T S) := by
  constructor
  · rintro ⟨n, hnS, hnone⟩
    have hsome : (findUnknownHold up.all_packages_dict S).isSome := by
      unfold findUnknownHold
      rw [List.find?_isSome]
      exact ⟨n, hnS, by simp [hnone]⟩
    rcases Option.isSome_iff_exists.mp hsome with ⟨m, hm⟩
    have hmS : m ∈ S := List.mem_of_find?_eq_some hm
    have hpred := List.find?_some hm
    refine ⟨m, hmS, ?_, ?_⟩
    · simp only [holdpkgPhase, hT, hS, hm]
    · simpa using hpred
  · intro hall
    have hnone : findUnknownHold up.all_packages_dict S = none := by
      unfold findUnknownHold
      rw [List.find?_eq_none]
      intro n hn
      simpa using hall n hn
    constructor
    · simp only [holdpkgPhase, hT, hS, hnone]
    · intro n hn
      exact mem_setUnion_right S T n hn

/-- Witness for claim C10: the hold name `h` is known both to the
installed and the upstream system, so the phase succeeds and `h` becomes
a target. -/
theorem claim_C10_witness :
    sanitize_user_input [] upC10 = Except.ok [] ∧
      sanitize_user_input [{ name := "h", constraint := none }] instC10 =
        Except.ok ["h"] ∧
      (((∃ n ∈ ["h"], dictLookup upC10.all_packages_dict n = none) →
          ∃ m ∈ ["h"],
            holdpkgPhase upC10 instC10 []
                [{ name := "h", constraint := none }] =
              Except.error (ProcErr.holdpkgNotUpstream m) ∧
            dictLookup upC10.all_packages_dict m = none) ∧
        ((∀ n ∈ ["h"], dictLookup upC10.all_packages_dict n ≠ none) →
          holdpkgPhase upC10 instC10 []
              [{ name := "h", constraint := none }] =
            Except.ok (setUnion [] ["h"]) ∧
          ∀ n ∈ ["h"], n ∈ setUnion ([] : List String) ["h"])) :=
  ⟨by decide, by decide,
    claim_C10_holdpkg upC10 instC10 [] [{ name := "h", constraint := none }]
      [] ["h"] (by decide) (by decide)⟩

/-! ## Claim C7: the sysupgrade fold -/

/-- Counterexample to claim C7: the installed official-catalog package `r`
at version 1 is catalog-tracked and has the strictly newer upstream
version 2, yet with sysupgrade requested (and repo-only mode off) the fold
of lines 163-173 only walks the community-catalog (aur and devel) package
lists, so `r`'s upgrade is not added. -/
theorem claim_C7_counterexample : ¬ claimC7At true false instC7 upD7 [] := by
  intro hcl
  have hmem : mkPkg "r" 1 PackageVariant.repoPkg ∈ sysValues instC7 := by
    decide
  have := hcl rfl (mkPkg "r" 1 PackageVariant.repoPkg) hmem (by decide)
    (mkPkg "r" 2 PackageVariant.repoPkg) (by decide) (by decide) [] (by decide)
  simp at this

/-- A package present in the accumulator stays present in the fold
result. -/
theorem upgradeCandidates_mono (d : Dict) :
    ∀ (ps acc res : List Package),
      upgradeCandidates d ps acc = Except.ok res → ∀ x ∈ acc, x ∈ res := by
  intro ps
  induction ps with
  | nil =>
    intro acc res h x hx
    simp only [upgradeCandidates, Except.ok.injEq] at h
    exact h ▸ hx
  | cons p ps ih =>
    intro acc res h x hx
    cases hq : dictLookup d p.name with
    | none =>
      simp only [upgradeCandidates, hq] at h
      exact absurd h (by simp)
    | some up =>
      simp only [upgradeCandidates, hq] at h
      by_cases hv : version_comparison up.version Comp.gt p.version = true
      · rw [if_pos hv] at h
        by_cases hin : up ∈ acc
        · rw [if_pos hin] at h
          exact ih acc res h x hx
        · rw [if_neg hin] at h
          exact ih _ res h x (List.mem_append_left _ hx)
      · rw [if_neg hv] at h
        exact ih acc res h x hx

/-- A walked package with a strictly newer upstream version contributes
that upstream package to the fold result. -/
theorem upgradeCandidates_adds (d : Dict) :
    ∀ (ps acc res : List Package) (p up : Package),
      upgradeCandidates d ps acc = Except.ok res → p ∈ ps →
      dictLookup d p.name = some up →
      version_comparison up.version Comp.gt p.version = true → up ∈ res := by
  intro ps
  induction ps with
  | nil =>
    intro acc res p up h hp
    simp at hp
  | cons q qs ih =>
    intro acc res p up h hp hlook hnew
    rcases List.mem_cons.mp hp with h1 | h2
    · subst h1
      simp only [upgradeCandidates, hlook] at h
      rw [if_pos hnew] at h
      by_cases hin : up ∈ acc
      · rw [if_pos hin] at h
        exact upgradeCandidates_mono d qs acc res h up hin
      · rw [if_neg hin] at h
        exact upgradeCandidates_mono d qs _ res h up
          (List.mem_append_right _ (List.mem_singleton_self up))
    · cases hq : dictLookup d q.name with
      | none =>
        simp only [upgradeCandidates, hq] at h
        exact absurd h (by simp)
      | some uq =>
        simp only [upgradeCandidates, hq] at h
        by_cases hv : version_comparison uq.version Comp.gt q.version = true
        · rw [if_pos hv] at h
          by_cases hin : uq ∈ acc
          · rw [if_pos hin] at h
            exact ih acc res p up h h2 hlook hnew
          · rw [if_neg hin] at h
            exact ih _ res p up h h2 hlook hnew
        · rw [if_neg hv] at h
          exact ih acc res p up h h2 hlook hnew

/-- The fold preserves duplicate-freeness of the accumulator. -/
theorem upgradeCandidates_nodup (d : Dict) :
    ∀ (ps acc res : List Package),
      upgradeCandidates d ps acc = Except.ok res → acc.Nodup → res.Nodup := by
  intro ps
  induction ps with
  | nil =>
    intro acc res h hacc
    simp only [upgradeCandidates, Except.ok.injEq] at h
    exact h ▸ hacc
  | cons p ps ih =>
    intro acc res h hacc
    cases hq : dictLookup d p.name with
    | none =>
      simp only [upgradeCandidates, hq] at h
      exact absurd h (by simp)
    | some up =>
      simp only [upgradeCandidates, hq] at h
      by_cases hv : version_comparison up.version Comp.gt p.version = true
      · rw [if_pos hv] at h
        by_cases hin : up ∈ acc
        · rw [if_pos hin] at h
          exact ih acc res h hacc
        · rw [if_neg hin] at h
          refine ih _ res h ?_
          rw [List.nodup_append]
          exact ⟨hacc, List.nodup_singleton up,
            fun x hx hx1 => hin ((List.mem_singleton.mp hx1) ▸ hx)⟩
      · rw [if_neg hv] at h
        exact ih acc res h hacc

/-- Claim C7 as amended: when sysupgrade is requested in a run that is
not repo-only, every installed community-catalog (source-build or devel)
package whose upstream version is strictly newer contributes its upstream
package to the install list, and no duplicate entries are introduced. -/
theorem claim_C7_amended (installed : System) (upstreamDict : Dict)
    (concrete res : List Package) (p up : Package)
    (hmem : p ∈ installed.aur_packages_list ++ installed.devel_packages_list)
    (hlook : dictLookup upstreamDict p.name = some up)
    (hnew : version_comparison up.version Comp.gt p.version = true)
    (hrun : sysupgradeFold true false installed upstreamDict concrete =
      Except.ok res) :
    up ∈ res ∧ (concrete.Nodup → res.Nodup) := by
  have hrun2 : upgradeCandidates upstreamDict
      (installed.aur_packages_list ++ installed.devel_packages_list)
      concrete = Except.ok res := hrun
  exact ⟨upgradeCandidates_adds upstreamDict _ concrete res p up hrun2 hmem
      hlook hnew,
    fun hc => upgradeCandidates_nodup upstreamDict _ concrete res hrun2 hc⟩

/-- Witness for the amended claim C7: the installed community package `s`
at version 1 has upstream version 2 and is folded into the install list. -/
theorem claim_C7_amended_witness :
    mkPkg "s" 1 PackageVariant.sourceBuild ∈
        instC7w.aur_packages_list ++ instC7w.devel_packages_list ∧
      dictLookup upD7w "s" = some (mkPkg "s" 2 PackageVariant.sourceBuild) ∧
      sysupgradeFold true false instC7w upD7w [] =
        Except.ok [mkPkg "s" 2 PackageVariant.sourceBuild] ∧
      (mkPkg "s" 2 PackageVariant.sourceBuild ∈
          [mkPkg "s" 2 PackageVariant.sourceBuild] ∧
        (([] : List Package).Nodup →
          [mkPkg "s" 2 PackageVariant.sourceBuild].Nodup)) :=
  ⟨by decide, by decide, by decide,
    claim_C7_amended instC7w upD7w []
      [mkPkg "s" 2 PackageVariant.sourceBuild]
      (mkPkg "s" 1 PackageVariant.sourceBuild)
      (mkPkg "s" 2 PackageVariant.sourceBuild)
      (by decide) (by decide) (by decide) (by decide)⟩

/-! ## Dict lemmas -/

/-- Lookup after inserting the same key. -/
theorem dictLookup_insert_self :
    ∀ (d : Dict) (k : String) (v : Package),
      dictLookup (dictInsert d k v) k = some v := by
  intro d k v
  induction d with
  | nil => simp [dictInsert, dictLookup]
  | cons kv rest ih =>
    rcases kv with ⟨k', v'⟩
    by_cases h : k' = k
    · simp [dictInsert, dictLookup, h]
    · simp [dictInsert, dictLookup, h, ih]

/-- Lookup after inserting a different key. -/
theorem dictLookup_insert_ne :
    ∀ (d : Dict) (k : String) (v : Package) (n : String), k ≠ n →
      dictLookup (dictInsert d k v) n = dictLookup d n := by
  intro d k v n hk
  induction d with
  | nil => simp [dictInsert, dictLookup, hk]
  | cons kv rest ih =>
    rcases kv with ⟨k', v'⟩
    by_cases h : k' = k
    · subst h
      simp [dictInsert, dictLookup, hk]
    · simp [dictInsert, dictLookup, h, ih]

/-- Lookup after erasing the same key. -/
theorem dictLookup_erase_self :
    ∀ (d : Dict) (k : String), dictLookup (dictErase d k) k = none := by
  intro d k
  induction d with
  | nil => simp [dictErase, dictLookup]
  | cons kv rest ih =>
    rcases kv with ⟨k', v'⟩
    by_cases h : k' = k
    · simp [dictErase, h, ih]
    · simp [dictErase, dictLookup, h, ih]

/-- Lookup after erasing a different key. -/
theorem dictLookup_erase_ne :
    ∀ (d : Dict) (k n : String), k ≠ n →
      dictLookup (dictErase d k) n = dictLookup d n := by
  intro d k n hk
  induction d with
  | nil => simp [dictErase]
  | cons kv rest ih =>
    rcases kv with ⟨k', v'⟩
    by_cases h : k' = k
    · subst h
      simp [dictErase, dictLookup, hk, ih]
    · simp [dictErase, dictLookup, h, ih]

/-- The keys after an insertion are the old keys, possibly with the new
key appended. -/
theorem mem_keys_insert (k : String) (v : Package) (n : String) :
    ∀ d : Dict, n ∈ (dictInsert d k v).map Prod.fst →
      n ∈ d.map Prod.fst ∨ n = k := by
  intro d
  induction d with
  | nil =>
    intro h
    simp [dictInsert] at h
    exact Or.inr h
  | cons kv rest ih =>
    rcases kv with ⟨k', v'⟩
    intro h
    by_cases hk : k' = k
    · subst hk
      simp only [dictInsert, if_pos rfl, ite_true, List.map_cons, List.mem_cons] at h
      rcases h with h | h
      · exact Or.inr h
      · exact Or.inl (List.mem_cons_of_mem _ h)
    · simp only [dictInsert, if_neg hk, List.map_cons, List.mem_cons] at h
      rcases h with h | h
      · exact Or.inl (h ▸ List.mem_cons_self _ _)
      · rcases ih h with h2 | h2
        · exact Or.inl (List.mem_cons_of_mem _ h2)
        · exact Or.inr h2

/-- Keys remain members after an erasure. -/
theorem mem_keys_erase (k n : String) :
    ∀ d : Dict, n ∈ (dictErase d k).map Prod.fst → n ∈ d.map Prod.fst := by
  intro d
  induction d with
  | nil =>
    intro h
    simp [dictErase] at h
  | cons kv rest ih =>
    rcases kv with ⟨k', v'⟩
    intro h
    by_cases hk : k' = k
    · simp only [dictErase, if_pos hk] at h
      exact List.mem_cons_of_mem _ (ih h)
    · simp only [dictErase, if_neg hk, List.map_cons, List.mem_cons] at h
      rcases h with h | h
      · exact h ▸ List.mem_cons_self _ _
      · exact List.mem_cons_of_mem _ (ih h)

/-- Insertion preserves key distinctness. -/
theorem keysNodup_insert (k : String) (v : Package) :
    ∀ d : Dict, keysNodup d → keysNodup (dictInsert d k v) := by
  intro d
  induction d with
  | nil =>
    intro _
    simp [dictInsert, keysNodup]
  | cons kv rest ih =>
    rcases kv with ⟨k', v'⟩
    intro h
    rcases List.nodup_cons.mp h with ⟨hk', hrest⟩
    by_cases hk : k' = k
    · subst hk
      unfold keysNodup
      simp only [dictInsert, if_pos rfl, ite_true, List.map_cons]
      exact List.nodup_cons.mpr ⟨hk', hrest⟩
    · unfold keysNodup
      simp only [dictInsert, if_neg hk, List.map_cons]
      refine List.nodup_cons.mpr ⟨?_, ih hrest⟩
      intro hmem
      rcases mem_keys_insert k v k' rest hmem with h2 | h2
      · exact hk' h2
      · exact hk h2

/-- Erasure preserves key distinctness. -/
theorem keysNodup_erase (k : String) :
    ∀ d : Dict, keysNodup d → keysNodup (dictErase d k) := by
  intro d
  induction d with
  | nil =>
    intro h
    simpa [dictErase] using h
  | cons kv rest ih =>
    rcases kv with ⟨k', v'⟩
    intro h
    rcases List.nodup_cons.mp h with ⟨hk', hrest⟩
    by_cases hk : k' = k
    · simp only [dictErase, if_pos hk]
      exact ih hrest
    · unfold keysNodup
      simp only [dictErase, if_neg hk, List.map_cons]
      refine List.nodup_cons.mpr ⟨?_, ih hrest⟩
      intro hmem
      exact hk' (mem_keys_erase k k' rest hmem)

/-- Insertion under the stored package's name preserves the key-name
invariant. -/
theorem keysMatch_insert (k : String) (v : Package) (hv : v.name = k) :
    ∀ d : Dict, keysMatch d → keysMatch (dictInsert d k v) := by
  intro d
  induction d with
  | nil =>
    intro _ kv hkv
    simp [dictInsert] at hkv
    subst hkv
    exact hv
  | cons kv0 rest ih =>
    rcases kv0 with ⟨k', v'⟩
    intro h
    have hrest : keysMatch rest :=
      fun kv hkv => h kv (List.mem_cons_of_mem _ hkv)
    by_cases hk : k' = k
    · intro kv hkv
      simp only [dictInsert, if_pos hk, List.mem_cons] at hkv
      rcases hkv with h2 | h2
      · subst h2
        exact hv
      · exact h kv (List.mem_cons_of_mem _ h2)
    · intro kv hkv
      simp only [dictInsert, if_neg hk, List.mem_cons] at hkv
      rcases hkv with h2 | h2
      · subst h2
        exact h _ (List.mem_cons_self _ _)
      · exact ih hrest kv h2

/-- Erasure preserves the key-name invariant. -/
theorem keysMatch_erase (k : String) :
    ∀ d : Dict, keysMatch d → keysMatch (dictErase d k) := by
  intro d
  induction d with
  | nil =>
    intro _ kv hkv
    simp [dictErase] at hkv
  | cons kv0 rest ih =>
    rcases kv0 with ⟨k', v'⟩
    intro h
    have hrest : keysMatch rest :=
      fun kv hkv => h kv (List.mem_cons_of_mem _ hkv)
    by_cases hk : k' = k
    · simp only [dictErase, if_pos hk]
      exact ih hrest
    · intro kv hkv
      simp only [dictErase, if_neg hk, List.mem_cons] at hkv
      rcases hkv with h2 | h2
      · subst h2
        exact h _ (List.mem_cons_self _ _)
      · exact ih hrest kv h2

/-- Under the key-name invariant, a successful lookup returns a package
named after the key. -/
theorem keysMatch_lookup (n : String) (p : Package) :
    ∀ d : Dict, keysMatch d → dictLookup d n = some p → p.name = n := by
  intro d
  induction d with
  | nil =>
    intro _ hl
    simp [dictLookup] at hl
  | cons kv rest ih =>
    rcases kv with ⟨k', v'⟩
    intro h hl
    have hrest : keysMatch rest :=
      fun kv hkv => h kv (List.mem_cons_of_mem _ hkv)
    by_cases hk : k' = n
    · rw [dictLookup, if_pos hk] at hl
      have hv : v' = p := by injection hl
      subst hv
      exact hk ▸ h _ (List.mem_cons_self _ _)
    · rw [dictLookup, if_neg hk] at hl
      exact ih hrest hl

/-- Inserting a fresh key appends the entry. -/
theorem dictInsert_of_notmem (k : String) (v : Package) :
    ∀ d : Dict, k ∉ d.map Prod.fst → dictInsert d k v = d ++ [(k, v)] := by
  intro d
  induction d with
  | nil =>
    intro _
    rfl
  | cons kv rest ih =>
    rcases kv with ⟨k', v'⟩
    intro h
    simp only [List.map_cons, List.mem_cons] at h
    push_neg at h
    rcases h with ⟨h1, h2⟩
    simp only [dictInsert, if_neg (fun hc : k' = k => h1 hc.symm),
      List.cons_append, List.cons.injEq, true_and]
    exact ih h2

/-- Rebuilding a dict from its values over an accumulator with disjoint
keys appends it unchanged. -/
theorem buildDict_aux :
    ∀ (d acc : Dict), keysMatch d →
      (acc.map Prod.fst ++ d.map Prod.fst).Nodup →
      List.foldl (fun a p => dictInsert a p.name p) acc (dictValues d) =
        acc ++ d := by
  intro d
  induction d with
  | nil =>
    intro acc _ _
    simp [dictValues]
  | cons kv rest ih =>
    rcases kv with ⟨k, v⟩
    intro acc hmatch hnodup
    have hv : v.name = k := hmatch _ (List.mem_cons_self _ _)
    have hrest : keysMatch rest :=
      fun kv2 hkv => hmatch kv2 (List.mem_cons_of_mem _ hkv)
    have hknotacc : k ∉ acc.map Prod.fst := by
      intro hmem
      rcases List.nodup_append.mp hnodup with ⟨-, -, hdisj⟩
      exact hdisj hmem (by simp)
    have hstep : dictInsert acc v.name v = acc ++ [(k, v)] := by
      rw [hv]
      exact dictInsert_of_notmem k v acc hknotacc
    have hnodup2 :
        ((acc ++ [(k, v)]).map Prod.fst ++ rest.map Prod.fst).Nodup := by
      simp only [List.map_append, List.map_cons, List.map_nil,
        List.append_assoc, List.singleton_append]
      simpa using hnodup
    calc List.foldl (fun a p => dictInsert a p.name p) acc
          (dictValues ((k, v) :: rest))
        = List.foldl (fun a p => dictInsert a p.name p) (acc ++ [(k, v)])
          (dictValues rest) := by
          simp only [dictValues, List.map_cons, List.foldl_cons, hstep]
      _ = (acc ++ [(k, v)]) ++ rest := ih (acc ++ [(k, v)]) hrest hnodup2
      _ = acc ++ ((k, v) :: rest) := by simp

/-- Rebuilding a well-formed dict from its values is the identity. -/
theorem buildDict_values_id (d : Dict) (hmatch : keysMatch d)
    (hnodup : keysNodup d) : buildDict (dictValues d) = d := by
  have := buildDict_aux d [] hmatch (by simpa [keysNodup] using hnodup)
  simpa [buildDict] using this

/-! ## The ignore fold -/

/-- One step of the ignore fold. -/
theorem ignoreFold_cons (installedDict : Dict) (m : String)
    (ms : List String) (d : Dict) :
    ignoreFold installedDict (m :: ms) d =
      ignoreFold installedDict ms
        (if (dictLookup d m).isSome then
          match dictLookup installedDict m with
          | some p => dictInsert d m p
          | none => dictErase d m
        else d) := rfl

/-- A name outside the ignore set keeps its dict entry across the fold. -/
theorem ignoreFold_lookup_notmem (installedDict : Dict) :
    ∀ (ign : List String) (d : Dict) (n : String), n ∉ ign →
      dictLookup (ignoreFold installedDict ign d) n = dictLookup d n := by
  intro ign
  induction ign with
  | nil =>
    intro d n _
    rfl
  | cons m ms ih =>
    intro d n hn
    have hnm : n ≠ m := fun hc => hn (hc ▸ List.mem_cons_self m ms)
    have hnms : n ∉ ms := fun hc => hn (List.mem_cons_of_mem m hc)
    rw [ignoreFold_cons, ih _ n hnms]
    by_cases hg : (dictLookup d m).isSome
    · rw [if_pos hg]
      cases hi : dictLookup installedDict m with
      | some p =>
        simp only [hi]
        exact dictLookup_insert_ne d m p n (Ne.symm hnm)
      | none =>
        simp only [hi]
        exact dictLookup_erase_ne d m n (Ne.symm hnm)
    · rw [if_neg hg]

/-- A name of the ignore set that is present in the dict ends up frozen
to (or erased according to) its installed entry. -/
theorem ignoreFold_lookup_mem (installedDict : Dict) :
    ∀ (ign : List String) (d : Dict) (n : String), ign.Nodup → n ∈ ign →
      dictLookup d n ≠ none →
      dictLookup (ignoreFold installedDict ign d) n =
        dictLookup installedDict n := by
  intro ign
  induction ign with
  | nil =>
    intro d n _ hn
    simp at hn
  | cons m ms ih =>
    intro d n hnodup hn hd
    rcases List.nodup_cons.mp hnodup with ⟨hm, hms⟩
    rcases List.mem_cons.mp hn with h1 | h2
    · subst h1
      have hg : (dictLookup d n).isSome := Option.isSome_iff_ne_none.mpr hd
      rw [ignoreFold_cons, if_pos hg]
      cases hi : dictLookup installedDict n with
      | some p =>
        simp only [hi]
        rw [ignoreFold_lookup_notmem installedDict ms _ n hm]
        rw [dictLookup_insert_self]
      | none =>
        simp only [hi]
        rw [ignoreFold_lookup_notmem installedDict ms _ n hm]
        rw [dictLookup_erase_self]
    · have hnm : n ≠ m := fun hc => hm (hc ▸ h2)
      rw [ignoreFold_cons]
      by_cases hg : (dictLookup d m).isSome
      · rw [if_pos hg]
        cases hi : dictLookup installedDict m with
        | some p =>
          simp only [hi]
          refine ih _ n hms h2 ?_
          rw [dictLookup_insert_ne d m p n (Ne.symm hnm)]
          exact hd
        | none =>
          simp only [hi]
          refine ih _ n hms h2 ?_
          rw [dictLookup_erase_ne d m n (Ne.symm hnm)]
          exact hd
      · rw [if_neg hg]
        exact ih _ n hms h2 hd

/-- The fold preserves key distinctness. -/
theorem ignoreFold_keysNodup (installedDict : Dict) :
    ∀ (ign : List String) (d : Dict), keysNodup d →
      keysNodup (ignoreFold installedDict ign d) := by
  intro ign
  induction ign with
  | nil =>
    intro d h
    exact h
  | cons m ms ih =>
    intro d h
    rw [ignoreFold_cons]
    by_cases hg : (dictLookup d m).isSome
    · rw [if_pos hg]
      cases hi : dictLookup installedDict m with
      | some p =>
        simp only [hi]
        exact ih _ (keysNodup_insert m p d h)
      | none =>
        simp only [hi]
        exact ih _ (keysNodup_erase m d h)
    · rw [if_neg hg]
      exact ih _ h

/-- The fold preserves the key-name invariant when the installed dict
satisfies it. -/
theorem ignoreFold_keysMatch (installedDict : Dict)
    (hinst : keysMatch installedDict) :
    ∀ (ign : List String) (d : Dict), keysMatch d →
      keysMatch (ignoreFold installedDict ign d) := by
  intro ign
  induction ign with
  | nil =>
    intro d h
    exact h
  | cons m ms ih =>
    intro d h
    rw [ignoreFold_cons]
    by_cases hg : (dictLookup d m).isSome
    · rw [if_pos hg]
      cases hi : dictLookup installedDict m with
      | some p =>
        simp only [hi]
        exact ih _ (keysMatch_insert m p (keysMatch_lookup m p installedDict hinst hi) d h)
      | none =>
        simp only [hi]
        exact ih _ (keysMatch_erase m d h)
    · rw [if_neg hg]
      exact ih _ h

/-! ## Claim C4: the ignore patch -/

/-- Counterexample to claim C4: the name `a` is ignored and installed,
but absent from the upstream universe; the loop of lines 129-143 only
touches names present upstream, so the patched universe still has no
entry for `a`, while the claim demands the entry be the installed
entity. -/
theorem claim_C4_counterexample : ¬ claimC4At instD4 (mkSystem []) ["a"] := by
  decide

/-- Claim C4 as amended: for every name of the effective ignore set that
is present in the upstream universe, the patched upstream entry equals
the installed dict's entry for it: the installed entity when the name is
installed, and no entry at all when it is not. -/
theorem claim_C4_amended (installedDict : Dict) (up : System)
    (ign : List String) (n : String)
    (h1 : keysNodup up.all_packages_dict)
    (h2 : keysMatch up.all_packages_dict)
    (h3 : keysMatch installedDict)
    (h4 : ign.Nodup) (hn : n ∈ ign)
    (hup : dictLookup up.all_packages_dict n ≠ none) :
    dictLookup (ignorePatch installedDict up ign).all_packages_dict n =
      dictLookup installedDict n := by
  have hne : ign.isEmpty = false := by
    cases ign with
    | nil => simp at hn
    | cons a l => rfl
  have hfK := ignoreFold_keysMatch installedDict h3 ign up.all_packages_dict h2
  have hfN := ignoreFold_keysNodup installedDict ign up.all_packages_dict h1
  simp only [ignorePatch, hne, Bool.false_eq_true, if_false, mkSystem]
  rw [buildDict_values_id _ hfK hfN]
  exact ignoreFold_lookup_mem installedDict ign up.all_packages_dict n h4 hn hup

/-- Witness for the amended claim C4: the ignored name `a` is present
upstream at version 1 and installed at version 2; after the patch the
upstream entry is the installed entity. -/
theorem claim_C4_amended_witness :
    keysNodup upC4.all_packages_dict ∧
      keysMatch upC4.all_packages_dict ∧
      keysMatch instD4 ∧
      (["a"] : List String).Nodup ∧
      "a" ∈ ["a"] ∧
      dictLookup upC4.all_packages_dict "a" ≠ none ∧
      dictLookup (ignorePatch instD4 upC4 ["a"]).all_packages_dict "a" =
        dictLookup instD4 "a" :=
  ⟨by decide, by decide, by decide, by decide, by decide, by decide,
    claim_C4_amended instD4 upC4 ["a"] "a" (by decide) (by decide)
      (by decide) (by decide) (by decide) (by decide)⟩

/-! ## Claim C9: an explicit request wins over ignoring -/

/-- Claim C9: a name that is both explicitly requested (canonicalized)
and ignored is subtracted from the ignore set before the universe is
patched, so its upstream entry survives the patch unchanged and it is
resolved at its upstream version. -/
theorem claim_C9_explicit_wins (installedDict : Dict) (up : System)
    (ignRaw sanitized : List String) (n : String)
    (h1 : keysNodup up.all_packages_dict)
    (h2 : keysMatch up.all_packages_dict)
    (h3 : keysMatch installedDict)
    (hn : n ∈ sanitized) :
    dictLookup (ignorePatch installedDict up
        (effectiveIgnore ignRaw sanitized)).all_packages_dict n =
      dictLookup up.all_packages_dict n := by
  have hnot : n ∉ effectiveIgnore ignRaw sanitized := by
    unfold effectiveIgnore
    intro hmem
    have hpred := (List.mem_filter.mp hmem).2
    simp at hpred
    exact hpred hn
  by_cases hne : (effectiveIgnore ignRaw sanitized).isEmpty
  · simp only [ignorePatch, hne, if_true]
  · have hfK := ignoreFold_keysMatch installedDict h3
      (effectiveIgnore ignRaw sanitized) up.all_packages_dict h2
    have hfN := ignoreFold_keysNodup installedDict
      (effectiveIgnore ignRaw sanitized) up.all_packages_dict h1
    simp only [ignorePatch, hne, if_false, mkSystem]
    rw [buildDict_values_id _ hfK hfN]
    exact ignoreFold_lookup_notmem installedDict _ up.all_packages_dict n hnot

/-- Witness for claim C9: `e` is both requested and ignored; the
effective ignore set is empty and its upstream entry survives. -/
theorem claim_C9_witness :
    keysNodup upC9.all_packages_dict ∧
      keysMatch upC9.all_packages_dict ∧
      keysMatch instD9 ∧
      "e" ∈ ["e"] ∧
      dictLookup (ignorePatch instD9 upC9
          (effectiveIgnore ["e"] ["e"])).all_packages_dict "e" =
        dictLookup upC9.all_packages_dict "e" :=
  ⟨by decide, by decide, by decide, by decide,
    claim_C9_explicit_wins instD9 upC9 ["e"] ["e"] "e" (by decide)
      (by decide) (by decide) (by decide)⟩

/-! ## Claim C5: the in-place edit of the ignore phase -/

/-- `getD` after `set` at the same valid index. -/
theorem getD_set_self {α : Type} (d0 : α) :
    ∀ (l : List α) (i : Nat) (a : α), i < l.length →
      (l.set i a).getD i d0 = a := by
  intro l
  induction l with
  | nil =>
    intro i a hi
    simp at hi
  | cons x xs ih =>
    intro i a hi
    cases i with
    | zero => rfl
    | succ j =>
      simp only [List.set_cons_succ, List.getD_cons_succ]
      exact ih j a (by simpa using hi)

/-- `getD` inside the left part of an append. -/
theorem getD_append_left {α : Type} (d0 : α) :
    ∀ (l l2 : List α) (i : Nat), i < l.length →
      (l ++ l2).getD i d0 = l.getD i d0 := by
  intro l
  induction l with
  | nil =>
    intro l2 i hi
    simp at hi
  | cons x xs ih =>
    intro l2 i hi
    cases i with
    | zero => rfl
    | succ j =>
      simp only [List.cons_append, List.getD_cons_succ]
      exact ih l2 j (by simpa using hi)

/-- `getD` at the old length of an append of one element. -/
theorem getD_append_length {α : Type} (d0 : α) :
    ∀ (l : List α) (a : α), (l ++ [a]).getD l.length d0 = a := by
  intro l
  induction l with
  | nil =>
    intro a
    rfl
  | cons x xs ih =>
    intro a
    simpa only [List.cons_append, List.length_cons, List.getD_cons_succ]
      using ih a

/-- The object at a valid address after an attribute assignment. -/
theorem Heap.getObj_setDict_self (h : Heap) (i : Nat) (d : Dict)
    (hi : i < h.objs.length) :
    (h.setDict i d).getObj i = { h.getObj i with all_packages_dict := d } := by
  unfold Heap.setDict Heap.getObj
  exact getD_set_self default h.objs i _ hi

/-- Attribute assignment allocates nothing. -/
theorem Heap.setDict_length (h : Heap) (i : Nat) (d : Dict) :
    (h.setDict i d).objs.length = h.objs.length := by
  simp [Heap.setDict]

/-- One step of the heap-level ignore loop. -/
theorem ignoreLoopHeap_cons (installedDict : Dict) (m : String)
    (ms : List String) (h : Heap) (uid : Nat) :
    ignoreLoopHeap installedDict (m :: ms) h uid =
      ignoreLoopHeap installedDict ms
        (if (dictLookup ((h.getObj uid).all_packages_dict) m).isSome then
          match dictLookup installedDict m with
          | some p =>
            h.setDict uid (dictInsert ((h.getObj uid).all_packages_dict) m p)
          | none =>
            h.setDict uid (dictErase ((h.getObj uid).all_packages_dict) m)
        else h) uid := rfl

/-- The heap loop performs exactly the dict-level ignore fold on the
object at `uid`, allocating nothing. -/
theorem ignoreLoopHeap_spec (installedDict : Dict) :
    ∀ (ign : List String) (h : Heap) (uid : Nat), uid < h.objs.length →
      ((ignoreLoopHeap installedDict ign h uid).getObj uid).all_packages_dict =
          ignoreFold installedDict ign ((h.getObj uid).all_packages_dict) ∧
        (ignoreLoopHeap installedDict ign h uid).objs.length =
          h.objs.length := by
  intro ign
  induction ign with
  | nil =>
    intro h uid _
    exact ⟨rfl, rfl⟩
  | cons m ms ih =>
    intro h uid hlt
    rw [ignoreLoopHeap_cons, ignoreFold_cons]
    by_cases hg :
        (dictLookup ((h.getObj uid).all_packages_dict) m).isSome
    · rw [if_pos hg, if_pos hg]
      cases hi : dictLookup installedDict m with
      | some p =>
        simp only [hi]
        have hlt2 : uid < (h.setDict uid
            (dictInsert ((h.getObj uid).all_packages_dict) m p)).objs.length := by
          rw [Heap.setDict_length]
          exact hlt
        obtain ⟨e1, e2⟩ := ih _ uid hlt2
        constructor
        · rw [e1, Heap.getObj_setDict_self h uid _ hlt]
        · rw [e2, Heap.setDict_length]
      | none =>
        simp only [hi]
        have hlt2 : uid < (h.setDict uid
            (dictErase ((h.getObj uid).all_packages_dict) m)).objs.length := by
          rw [Heap.setDict_length]
          exact hlt
        obtain ⟨e1, e2⟩ := ih _ uid hlt2
        constructor
        · rw [e1, Heap.getObj_setDict_self h uid _ hlt]
        · rw [e2, Heap.setDict_length]
    · rw [if_neg hg, if_neg hg]
      exact ih h uid hlt

/-- Counterexample to claim C5: with the ignored name `a` present both
upstream and installed, the loop of lines 129-143 overwrites the dict
attribute of the original upstream `System` object (address 0) in place,
so the object at the original address is no longer what it was. -/
theorem claim_C5_counterexample : ¬ claimC5At instD4 ["a"] heap5 0 := by
  decide

/-- Claim C5 as amended: the ignore-list patch first edits the original
universe object's name index in place (the object at the old address ends
up holding the patched dict), and then, for a nonempty ignore set,
allocates a freshly rebuilt instance — a new address holding both indices
reconstructed from scratch from the patched entries. -/
theorem claim_C5_amended (installedDict : Dict) (ign : List String)
    (h : Heap) (uid : Nat) (hlt : uid < h.objs.length) (hne : ign ≠ []) :
    (ignorePhaseHeap installedDict ign h uid).2 = h.objs.length ∧
      (ignorePhaseHeap installedDict ign h uid).2 ≠ uid ∧
      (ignorePhaseHeap installedDict ign h uid).1.getObj
          (ignorePhaseHeap installedDict ign h uid).2 =
        mkSystemObj (dictValues (ignoreFold installedDict ign
          ((h.getObj uid).all_packages_dict))) ∧
      ((ignorePhaseHeap installedDict ign h uid).1.getObj
          uid).all_packages_dict =
        ignoreFold installedDict ign ((h.getObj uid).all_packages_dict) := by
  have hie : ign.isEmpty = false := by
    cases ign with
    | nil => exact absurd rfl hne
    | cons a l => rfl
  obtain ⟨e1, e2⟩ := ignoreLoopHeap_spec installedDict ign h uid hlt
  simp only [ignorePhaseHeap, hie, Bool.false_eq_true, if_false, Heap.alloc]
  refine ⟨e2, ?_, ?_, ?_⟩
  · rw [e2]
    omega
  · unfold Heap.getObj
    rw [getD_append_length]
    exact congrArg (fun d => mkSystemObj (dictValues d)) e1
  · unfold Heap.getObj
    rw [getD_append_left default _ _ uid (by rw [e2]; exact hlt)]
    exact e1

/-- Witness for the amended claim C5 at the concrete heap: the fresh
instance lands at address 1 and the original object at address 0 holds
the patched dict. -/
theorem claim_C5_amended_witness :
    0 < heap5.objs.length ∧
      (["a"] : List String) ≠ [] ∧
      ((ignorePhaseHeap instD4 ["a"] heap5 0).2 = heap5.objs.length ∧
        (ignorePhaseHeap instD4 ["a"] heap5 0).2 ≠ 0 ∧
        (ignorePhaseHeap instD4 ["a"] heap5 0).1.getObj
            (ignorePhaseHeap instD4 ["a"] heap5 0).2 =
          mkSystemObj (dictValues (ignoreFold instD4 ["a"]
            ((heap5.getObj 0).all_packages_dict))) ∧
        ((ignorePhaseHeap instD4 ["a"] heap5 0).1.getObj
            0).all_packages_dict =
          ignoreFold instD4 ["a"] ((heap5.getObj 0).all_packages_dict)) :=
  ⟨by decide, by decide,
    claim_C5_amended instD4 ["a"] heap5 0 (by decide) (by decide)⟩

end Aurman
